import Mathlib

/-!
Shallow embedding of `scripts/build_notes_index.py`, the single source file of
this repository.  The script scans a directory tree of HTML note files and
assembles one JSON index document.  Filesystem state is modelled explicitly:
a directory entry carries its name, whether it is a directory, and its child
files (name and modification time, in whole epoch seconds); the wall clock and
the local timezone offset are passed as parameters.  All definitions follow the
Python source line by line; string transforms act on `List Char`, matching
CPython code-point semantics restricted to ASCII case mapping.
-/

set_option maxRecDepth 100000

namespace NotesIndex

/-- ASCII lower-casing of one character, modelling the action of Python
`str.lower` on the ASCII range (identity elsewhere). -/
def pyLowerChar : Char → Char
  | 'A' => 'a' | 'B' => 'b' | 'C' => 'c' | 'D' => 'd' | 'E' => 'e' | 'F' => 'f'
  | 'G' => 'g' | 'H' => 'h' | 'I' => 'i' | 'J' => 'j' | 'K' => 'k' | 'L' => 'l'
  | 'M' => 'm' | 'N' => 'n' | 'O' => 'o' | 'P' => 'p' | 'Q' => 'q' | 'R' => 'r'
  | 'S' => 's' | 'T' => 't' | 'U' => 'u' | 'V' => 'v' | 'W' => 'w' | 'X' => 'x'
  | 'Y' => 'y' | 'Z' => 'z'
  | c => c

/-- ASCII upper-casing of one character, modelling the action of Python
`str.upper` on the ASCII range (identity elsewhere). -/
def pyUpperChar : Char → Char
  | 'a' => 'A' | 'b' => 'B' | 'c' => 'C' | 'd' => 'D' | 'e' => 'E' | 'f' => 'F'
  | 'g' => 'G' | 'h' => 'H' | 'i' => 'I' | 'j' => 'J' | 'k' => 'K' | 'l' => 'L'
  | 'm' => 'M' | 'n' => 'N' | 'o' => 'O' | 'p' => 'P' | 'q' => 'Q' | 'r' => 'R'
  | 's' => 'S' | 't' => 'T' | 'u' => 'U' | 'v' => 'V' | 'w' => 'W' | 'x' => 'X'
  | 'y' => 'Y' | 'z' => 'Z'
  | c => c

/-- The character class `\d` of the source regexes, restricted to ASCII. -/
def isAsciiDigit (c : Char) : Bool := '0' ≤ c && c ≤ '9'

/-- The character class `[a-z0-9]` used by `re.sub` in the source. -/
def isLowerAlnum (c : Char) : Bool := ('a' ≤ c && c ≤ 'z') || isAsciiDigit c

/-- Membership in the whitespace set stripped by Python `str.strip()`. -/
def pyIsSpace (c : Char) : Bool :=
  let n := c.toNat
  (9 ≤ n && n ≤ 13) || (28 ≤ n && n ≤ 31) || n = 32 || n = 133 || n = 160 ||
  n = 5760 || (8192 ≤ n && n ≤ 8202) || n = 8232 || n = 8233 || n = 8239 ||
  n = 8287 || n = 12288

/-- Strip the characters satisfying `p` from both ends of a list, as Python
`str.strip` with a fixed character set does. -/
def stripEnds (p : Char → Bool) (l : List Char) : List Char :=
  ((l.dropWhile p).reverse.dropWhile p).reverse

/-- Match a literal pattern against the front of a string, returning the
remainder on success.  This is the primitive from which the two anchored
regexes of `pretty_title` are assembled. -/
def matchLit : List Char → List Char → Option (List Char)
  | [], s => some s
  | _ :: _, [] => none
  | p :: ps, c :: cs => if c = p then matchLit ps cs else none

/-- Test for the `(\d+)` group that both regexes end with: under `fullmatch`
the remainder has to be non-empty and all digits. -/
def digitsOk (r : List Char) : Bool := !r.isEmpty && r.all isAsciiDigit

/-- The `er` alternative of `chap(?:ter|er)(\d+)`. -/
def chapAlt (r : List Char) : Option (List Char) :=
  match matchLit ['e', 'r'] r with
  | some r2 => if digitsOk r2 then some r2 else none
  | none => none

/-- `re.fullmatch(r"chap(?:ter|er)(\d+)", stem, re.IGNORECASE)`, applied to the
lower-cased stem; returns the digit group.  The `ter` alternative is tried
first, falling back to `er` exactly as the backtracking engine does. -/
def chapMatch (l : List Char) : Option (List Char) :=
  match matchLit ['c', 'h', 'a', 'p'] l with
  | none => none
  | some r =>
    match matchLit ['t', 'e', 'r'] r with
    | some r2 => if digitsOk r2 then some r2 else chapAlt r
    | none => chapAlt r

/-- `re.fullmatch(r"diffusion[-_ ]?(\d+)", stem, re.IGNORECASE)`, applied to
the lower-cased stem; returns the digit group.  The optional separator is
consumed greedily, backtracking to the empty alternative when needed. -/
def diffMatch (l : List Char) : Option (List Char) :=
  match matchLit ['d', 'i', 'f', 'f', 'u', 's', 'i', 'o', 'n'] l with
  | none => none
  | some r =>
    match r with
    | [] => none
    | c :: rest =>
      if (c = '-' || c = '_' || c = ' ') && digitsOk rest then some rest
      else if digitsOk r then some r else none

/-- Numeric value of a digit group, as Python `int` applied to the group. -/
def valDigits (ds : List Char) : Nat :=
  ds.foldl (fun a c => 10 * a + (c.toNat - 48)) 0

/-- Little-endian decimal digits of a number; the first argument is fuel,
adequate whenever it is at least the number itself. -/
def natDigitsAux : Nat → Nat → List Nat
  | _, 0 => []
  | 0, _ + 1 => []
  | f + 1, n + 1 => ((n + 1) % 10) :: natDigitsAux f ((n + 1) / 10)

/-- The decimal digit character for a value below ten. -/
def digitChar (d : Nat) : Char := Char.ofNat (48 + d)

/-- Decimal rendering of a natural number, as a Python f-string renders the
non-negative `int` values interpolated by the script. -/
def natToString (n : Nat) : String :=
  if n = 0 then "0" else String.mk ((natDigitsAux n n).reverse.map digitChar)

/-- Replace underscores and hyphens by spaces, modelling the chained
`.replace("_", " ").replace("-", " ")` of the source. -/
def dashUnderToSpace (c : Char) : Char := if c = '_' || c = '-' then ' ' else c

/-- `pretty_title` from the source: chapter stems become `第N章`, diffusion
stems become `Diffusion N`, the stem `vae` (any casing) becomes `VAE`, and any
other stem has underscores and hyphens replaced by spaces and is stripped. -/
def pretty_title (stem : String) : String :=
  match chapMatch (stem.data.map pyLowerChar) with
  | some ds => "第" ++ natToString (valDigits ds) ++ "章"
  | none =>
    match diffMatch (stem.data.map pyLowerChar) with
    | some ds => "Diffusion " ++ natToString (valDigits ds)
    | none =>
      if stem.data.map pyUpperChar = ['V', 'A', 'E'] then "VAE"
      else String.mk (stripEnds pyIsSpace (stem.data.map dashUnderToSpace))

example : pretty_title "chapter3" = "第3章" := by decide
example : pretty_title "chap03" = "chap03" := by decide
example : pretty_title "chaper03" = "第3章" := by decide
example : pretty_title "CHAPTER012" = "第12章" := by decide
example : pretty_title "diffusion-7" = "Diffusion 7" := by decide
example : pretty_title "diffusion 08" = "Diffusion 8" := by decide
example : pretty_title "diffusion" = "diffusion" := by decide
example : pretty_title "vae" = "VAE" := by decide
example : pretty_title "VaE" = "VAE" := by decide
example : pretty_title "my_notes-v2" = "my notes v2" := by decide
example : pretty_title "  x  " = "x" := by decide

/-- One pass of `re.sub(r"[^a-z0-9]+", "-", s)`: each maximal run of
characters outside `[a-z0-9]` becomes a single hyphen.  The flag records
whether the scanner is inside such a run. -/
def collapseRuns : Bool → List Char → List Char
  | _, [] => []
  | inRun, c :: cs =>
    if isLowerAlnum c then c :: collapseRuns false cs
    else if inRun then collapseRuns true cs
    else '-' :: collapseRuns true cs

/-- UTF-8 encoding of one scalar value, as Python `str.encode("utf-8")`
produces it. -/
def utf8Bytes (c : Char) : List Nat :=
  let n := c.toNat
  if n < 128 then [n]
  else if n < 2048 then [192 + n / 64, 128 + n % 64]
  else if n < 65536 then [224 + n / 4096, 128 + n / 64 % 64, 128 + n % 64]
  else [240 + n / 262144, 128 + n / 4096 % 64, 128 + n / 64 % 64, 128 + n % 64]

/-- UTF-8 byte sequence of a string. -/
def strUtf8 (s : String) : List Nat := s.data.flatMap utf8Bytes

/-- Reduction modulo `2 ^ 32`, the word size of the MD5 state. -/
def w32 (n : Nat) : Nat := n % 4294967296

/-- Left rotation of a 32-bit word by `c` places. -/
def rotl (x c : Nat) : Nat := w32 (x * 2 ^ c + x / 2 ^ (32 - c))

/-- Bitwise complement of a 32-bit word. -/
def notW (x : Nat) : Nat := x ^^^ 4294967295

/-- The 64 sine-derived round constants of MD5 (RFC 1321). -/
def md5K : List Nat :=
  [3614090360, 3905402710, 606105819, 3250441966,
   4118548399, 1200080426, 2821735955, 4249261313,
   1770035416, 2336552879, 4294925233, 2304563134,
   1804603682, 4254626195, 2792965006, 1236535329,
   4129170786, 3225465664, 643717713, 3921069994,
   3593408605, 38016083, 3634488961, 3889429448,
   568446438, 3275163606, 4107603335, 1163531501,
   2850285829, 4243563512, 1735328473, 2368359562,
   4294588738, 2272392833, 1839030562, 4259657740,
   2763975236, 1272893353, 4139469664, 3200236656,
   681279174, 3936430074, 3572445317, 76029189,
   3654602809, 3873151461, 530742520, 3299628645,
   4096336452, 1126891415, 2878612391, 4237533241,
   1700485571, 2399980690, 4293915773, 2240044497,
   1873313359, 4264355552, 2734768916, 1309151649,
   4149444226, 3174756917, 718787259, 3951481745]

/-- The per-round left-rotation amounts of MD5 (RFC 1321). -/
def md5S : List Nat :=
  [7, 12, 17, 22, 7, 12, 17, 22, 7, 12, 17, 22, 7, 12, 17, 22,
   5, 9, 14, 20, 5, 9, 14, 20, 5, 9, 14, 20, 5, 9, 14, 20,
   4, 11, 16, 23, 4, 11, 16, 23, 4, 11, 16, 23, 4, 11, 16, 23,
   6, 10, 15, 21, 6, 10, 15, 21, 6, 10, 15, 21, 6, 10, 15, 21]

/-- MD5 padding: append `0x80`, zero bytes up to 56 mod 64, then the bit
length as a 64-bit little-endian quantity. -/
def md5Pad (m : List Nat) : List Nat :=
  let lenBits := (8 * m.length) % 2 ^ 64
  let zeros := (119 - m.length % 64) % 64
  m ++ [128] ++ List.replicate zeros 0 ++
    (List.range 8).map (fun i => lenBits / 2 ^ (8 * i) % 256)

/-- Split a byte sequence into 64-byte chunks; the first argument is fuel,
adequate whenever it is at least the length of the list. -/
def chunks64 : Nat → List Nat → List (List Nat)
  | _, [] => []
  | 0, _ :: _ => []
  | f + 1, c :: cs => (c :: cs).take 64 :: chunks64 f ((c :: cs).drop 64)

/-- Little-endian 32-bit word `i` of a 64-byte chunk. -/
def leWord (b : List Nat) (i : Nat) : Nat :=
  b.getD (4 * i) 0 + 256 * b.getD (4 * i + 1) 0 + 65536 * b.getD (4 * i + 2) 0 +
    16777216 * b.getD (4 * i + 3) 0

/-- The MD5 round mixing function, indexed by step. -/
def md5F (i b c d : Nat) : Nat :=
  if i < 16 then (b &&& c) ||| (notW b &&& d)
  else if i < 32 then (d &&& b) ||| (notW d &&& c)
  else if i < 48 then b ^^^ c ^^^ d
  else c ^^^ (b ||| notW d)

/-- The MD5 message-word schedule, indexed by step. -/
def md5G (i : Nat) : Nat :=
  if i < 16 then i
  else if i < 32 then (5 * i + 1) % 16
  else if i < 48 then (3 * i + 5) % 16
  else (7 * i) % 16

/-- One of the 64 steps of an MD5 chunk computation. -/
def md5Step (chunk : List Nat) (st : Nat × Nat × Nat × Nat) (i : Nat) :
    Nat × Nat × Nat × Nat :=
  let (a, b, c, d) := st
  let f := w32 (md5F i b c d + a + md5K.getD i 0 + leWord chunk (md5G i))
  (d, w32 (b + rotl f (md5S.getD i 0)), b, c)

/-- Process one 64-byte chunk, adding the mixed state back into the running
state. -/
def md5Chunk (st : Nat × Nat × Nat × Nat) (chunk : List Nat) :
    Nat × Nat × Nat × Nat :=
  let (a, b, c, d) := (List.range 64).foldl (md5Step chunk) st
  (w32 (st.1 + a), w32 (st.2.1 + b), w32 (st.2.2.1 + c), w32 (st.2.2.2 + d))

/-- Little-endian bytes of a 32-bit word. -/
def le4 (w : Nat) : List Nat :=
  [w % 256, w / 256 % 256, w / 65536 % 256, w / 16777216 % 256]

/-- The 16-byte MD5 digest of a byte sequence (RFC 1321). -/
def md5Digest (m : List Nat) : List Nat :=
  let padded := md5Pad m
  let st := (chunks64 padded.length padded).foldl md5Chunk
    (1732584193, 4023233417, 2562383102, 271733878)
  le4 st.1 ++ le4 st.2.1 ++ le4 st.2.2.1 ++ le4 st.2.2.2

/-- Lower-case hexadecimal character of a nibble. -/
def hexChar (v : Nat) : Char :=
  let u := v % 16
  if u < 10 then Char.ofNat (48 + u) else Char.ofNat (87 + u)

/-- Lower-case hexadecimal rendering of a byte sequence, as Python
`hexdigest` produces it. -/
def bytesToHex (bs : List Nat) : List Char :=
  bs.flatMap (fun b => [hexChar (b / 16), hexChar b])

/-- `hashlib.md5(name.encode("utf-8")).hexdigest()[:8]` from the source. -/
def md5hex8 (s : String) : List Char := (bytesToHex (md5Digest (strUtf8 s))).take 8

/-- `slugify_category_key` from the source: lower-case, collapse runs of
characters outside `[a-z0-9]` to single hyphens, strip hyphens at both ends;
an empty result falls back to a hash-derived key. -/
def slugify_category_key (name : String) : String :=
  let key := stripEnds (fun c => c = '-') (collapseRuns false (name.data.map pyLowerChar))
  if !key.isEmpty then String.mk key else "cat-" ++ String.mk (md5hex8 name)

/-- The fixed display-name override table of the source. -/
def CATEGORY_NAME_OVERRIDES : List (String × String) :=
  [("TimeSeries", "时间序列"), ("Diffusion", "扩散模型"),
   ("RandomProcess", "随机过程"), ("StochasticProcess", "随机过程")]

/-- The character class `[A-Z]` of the camel-case boundary regex. -/
def isUpperAscii (c : Char) : Bool := 'A' ≤ c && c ≤ 'Z'

/-- `re.sub(r"([a-z0-9])([A-Z])", r"\1 \2", name)`: insert a space at each
boundary between a lower-case-or-digit character and an upper-case character,
scanning left to right and resuming after each replacement. -/
def camelSub : List Char → List Char
  | [] => []
  | [c] => [c]
  | a :: b :: rest =>
    if isLowerAlnum a && isUpperAscii b then a :: ' ' :: b :: camelSub rest
    else a :: camelSub (b :: rest)

/-- `prettify_category_name` from the source: table override first, otherwise
camel-case spacing, underscore and hyphen replacement, strip, with the raw
name as fallback for an empty result. -/
def prettify_category_name (name : String) : String :=
  match CATEGORY_NAME_OVERRIDES.lookup name with
  | some v => v
  | none =>
    let ws := stripEnds pyIsSpace ((camelSub name.data).map dashUnderToSpace)
    if ws.isEmpty then name else String.mk ws

example : slugify_category_key "TimeSeries" = "timeseries" := by decide
example : slugify_category_key "My Topic!!Area" = "my-topic-area" := by decide
example : slugify_category_key "--a--" = "a" := by decide
example : String.mk (md5hex8 "") = "d41d8cd9" := by decide
example : slugify_category_key "日本" = "cat-4dbed2e6" := by decide
example : prettify_category_name "TimeSeries" = "时间序列" := by decide
example : prettify_category_name "MyTopicArea" = "My Topic Area" := by decide
example : prettify_category_name "snake_case-x" = "snake case x" := by decide
example : prettify_category_name "___" = "___" := by decide

/-- A child entry of a category directory: file name and modification time in
whole epoch seconds (`st_mtime`). -/
structure FileEnt where
  name : String
  mtime : Int
deriving DecidableEq

/-- An immediate entry of the root directory: name, directory flag, and child
entries. -/
structure DirEnt where
  name : String
  isDir : Bool
  children : List FileEnt
deriving DecidableEq

/-- The fixed ignore set `IGNORED_DIRS` of the source. -/
def IGNORED_DIRS : List String := [".git", "__pycache__", "assets", "data", "scripts"]

/-- Whether a name matches the glob pattern `*.html` (case-sensitive; the
wildcard may match the empty string, and `pathlib` globbing does not exempt
dotfiles). -/
def matchesHtmlGlob (name : String) : Bool :=
  List.isSuffixOf ['.', 'h', 't', 'm', 'l'] name.data

/-- `directory.glob("*.html")`: the child entries matching the pattern, in
directory order. -/
def globHtml (children : List FileEnt) : List FileEnt :=
  children.filter (fun f => matchesHtmlGlob f.name)

/-- Whether a name starts with a dot. -/
def startsWithDot (s : String) : Bool :=
  match s.data with
  | [] => false
  | c :: _ => c = '.'

/-- The filter of the discovery loop: keep directories only, skip dot-names
and ignored names, skip directories without `.html` entries. -/
def keepDir (d : DirEnt) : Bool :=
  d.isDir && !startsWithDot d.name && !(IGNORED_DIRS.contains d.name) &&
    !(globHtml d.children).isEmpty

/-- The `while key in used_keys` loop of the source, searching suffixes
`suffix, suffix+1, ...`; the second `Nat` is fuel, adequate whenever more
candidates than used keys remain. -/
def resolveLoop (base : String) (used : List String) : Nat → Nat → String
  | suffix, 0 => base ++ "-" ++ natToString suffix
  | suffix, f + 1 =>
    let k := base ++ "-" ++ natToString suffix
    if k ∈ used then resolveLoop base used (suffix + 1) f else k

/-- Collision resolution for a category key: the base slug if unused,
otherwise the first of `base-2`, `base-3`, ... not in `used`. -/
def resolveKey (base : String) (used : List String) : String :=
  if base ∈ used then resolveLoop base used 2 (used.length + 1) else base

/-- The discovery loop body: walk the sorted root entries, keep the surviving
directories, assign each its resolved unique key and display name. -/
def discoverAux : List DirEnt → List String → List (String × String × DirEnt)
  | [], _ => []
  | d :: rest, used =>
    if keepDir d then
      let key := resolveKey (slugify_category_key d.name) used
      (key, prettify_category_name d.name, d) :: discoverAux rest (key :: used)
    else discoverAux rest used

/-- Lower-cased character list of a string, the `item.name.lower()` sort key. -/
def lowerName (s : String) : List Char := s.data.map pyLowerChar

/-- Order of the initial `sorted(root.iterdir(), key=...name.lower())`. -/
def dirOrder (a b : DirEnt) : Prop := lowerName a.name ≤ lowerName b.name

instance : DecidableRel dirOrder := fun a b =>
  inferInstanceAs (Decidable (lowerName a.name ≤ lowerName b.name))

instance : IsTotal DirEnt dirOrder := ⟨fun a b => le_total _ _⟩

instance : IsTrans DirEnt dirOrder := ⟨fun _ _ _ h h2 => le_trans h h2⟩

/-- The fixed priority list `CATEGORY_ORDER_HINTS` of the source. -/
def CATEGORY_ORDER_HINTS : List String :=
  ["timeseries", "diffusion", "randomprocess", "stochasticprocess"]

/-- The first component of the final sort key: position in the priority list,
or its length for keys outside it. -/
def hintRank (key : String) : Nat :=
  if CATEGORY_ORDER_HINTS.contains key then CATEGORY_ORDER_HINTS.indexOf key
  else CATEGORY_ORDER_HINTS.length

/-- Order of the final category sort: ascending in the pair
`(hintRank key, name.lower())`. -/
def catOrder (a b : String × String × DirEnt) : Prop :=
  hintRank a.1 < hintRank b.1 ∨
    (hintRank a.1 = hintRank b.1 ∧ lowerName a.2.1 ≤ lowerName b.2.1)

instance : DecidableRel catOrder := fun a b =>
  inferInstanceAs (Decidable (_ ∨ _))

instance : IsTotal (String × String × DirEnt) catOrder where
  total a b := by
    rcases Nat.lt_trichotomy (hintRank a.1) (hintRank b.1) with h | h | h
    · exact Or.inl (Or.inl h)
    · rcases le_total (lowerName a.2.1) (lowerName b.2.1) with h2 | h2
      · exact Or.inl (Or.inr ⟨h, h2⟩)
      · exact Or.inr (Or.inr ⟨h.symm, h2⟩)
    · exact Or.inr (Or.inl h)

instance : IsTrans (String × String × DirEnt) catOrder where
  trans a b c h h2 := by
    rcases h with h | ⟨h, ha⟩ <;> rcases h2 with h2 | ⟨h2, hb⟩
    · exact Or.inl (h.trans h2)
    · exact Or.inl (h2 ▸ h)
    · exact Or.inl (h ▸ h2)
    · exact Or.inr ⟨h.trans h2, ha.trans hb⟩

/-- `discover_categories` from the source.  Python `list.sort` and `sorted`
are stable; for a total reflexive comparison the stable sort is unique, and
`List.insertionSort` computes it. -/
def discover_categories (root : List DirEnt) : List (String × String × DirEnt) :=
  (discoverAux (root.insertionSort dirOrder) []).insertionSort catOrder

/-- One note record of the output document. -/
structure Note where
  id : String
  title : String
  fileName : String
  path : String
  category : String
  categoryName : String
  updatedAt : String
  updatedAtTs : Int
deriving DecidableEq

/-- One category summary entry of the output document. -/
structure CatEntry where
  key : String
  name : String
  count : Nat
deriving DecidableEq

/-- The assembled index document. -/
structure Doc where
  generatedAt : String
  total : Nat
  categories : List CatEntry
  notes : List Note
deriving DecidableEq

/-- Gregorian civil date from a count of days since the Unix epoch
(the standard era-based conversion, with every intermediate division applied
to a non-negative quantity). -/
def civilFromDays (z0 : Int) : Int × Int × Int :=
  let z := z0 + 719468
  let era := (if 0 ≤ z then z else z - 146096) / 146097
  let doe := z - era * 146097
  let yoe := (doe - doe / 1460 + doe / 36524 - doe / 146096) / 365
  let y := yoe + era * 400
  let doy := doe - (365 * yoe + yoe / 4 - yoe / 100)
  let mp := (5 * doy + 2) / 153
  let d := doy - (153 * mp + 2) / 5 + 1
  let m := mp + (if mp < 10 then 3 else -9)
  (y + (if m ≤ 2 then 1 else 0), m, d)

/-- Zero-padded two-digit decimal rendering. -/
def pad2 (n : Nat) : String := if n < 10 then "0" ++ natToString n else natToString n

/-- Zero-padded four-digit decimal rendering. -/
def pad4 (n : Nat) : String :=
  if n < 10 then "000" ++ natToString n
  else if n < 100 then "00" ++ natToString n
  else if n < 1000 then "0" ++ natToString n
  else natToString n

/-- `%Y-%m-%d` of the civil date for a day count. -/
def fmtDate (days : Int) : String :=
  let c := civilFromDays days
  pad4 c.1.toNat ++ "-" ++ pad2 c.2.1.toNat ++ "-" ++ pad2 c.2.2.toNat

/-- The `updatedAt` field: date of an instant in the local timezone, whose
offset in seconds is a function of the instant (`astimezone`). -/
def localDate (tz : Int → Int) (t : Int) : String := fmtDate ((t + tz t).fdiv 86400)

/-- `%z` rendering of a UTC offset in seconds. -/
def fmtOffset (off : Int) : String :=
  (if off < 0 then "-" else "+") ++ pad2 (off.natAbs / 3600) ++
    pad2 (off.natAbs % 3600 / 60)

/-- `%Y-%m-%d %H:%M:%S %z` of an instant in the local timezone, the
`generatedAt` field. -/
def fmtDateTime (tz : Int → Int) (t : Int) : String :=
  let loc := t + tz t
  let secs := (loc.emod 86400).toNat
  fmtDate (loc.fdiv 86400) ++ " " ++ pad2 (secs / 3600) ++ ":" ++
    pad2 (secs % 3600 / 60) ++ ":" ++ pad2 (secs % 60) ++ " " ++ fmtOffset (tz t)

/-- Index of the last dot in a name, as Python `str.rfind(".")`. -/
def rfindDot (l : List Char) : Option Nat :=
  let k := (l.reverse.takeWhile (fun c => !(c = '.'))).length
  if k = l.length then none else some (l.length - 1 - k)

/-- `PurePath.stem`: the name without its suffix, where a suffix starts at the
last dot provided that dot is neither leading nor final. -/
def pyStem (l : List Char) : List Char :=
  match rfindDot l with
  | some i => if 0 < i ∧ i < l.length - 1 then l.take i else l
  | none => l

/-- `build_note` from the source, for a file of a discovered category.  The
path is `relative_to(root).as_posix()`, hence directory name, slash, file
name; the id is the slug of `f"{category_key}-{stem.lower()}"`. -/
def build_note (dirName category_key category_name : String) (tz : Int → Int)
    (f : FileEnt) : Note :=
  let stem := pyStem f.name.data
  { id := String.mk (stripEnds (fun c => c = '-')
      (collapseRuns false (category_key.data ++ '-' :: stem.map pyLowerChar)))
    title := pretty_title (String.mk stem)
    fileName := f.name
    path := dirName ++ "/" ++ f.name
    category := category_key
    categoryName := category_name
    updatedAt := localDate tz f.mtime
    updatedAtTs := f.mtime }

/-- Order of `sorted(target_dir.glob("*.html"))`: paths of one directory
compare by file name, code point by code point. -/
def fileOrder (a b : FileEnt) : Prop := a.name.data ≤ b.name.data

instance : DecidableRel fileOrder := fun a b =>
  inferInstanceAs (Decidable (a.name.data ≤ b.name.data))

instance : IsTotal FileEnt fileOrder := ⟨fun a b => le_total _ _⟩

instance : IsTrans FileEnt fileOrder := ⟨fun _ _ _ h h2 => le_trans h h2⟩

/-- Order of `notes.sort(key=..., reverse=True)`: descending in the pair
`(updatedAtTs, title)`. -/
def noteOrder (a b : Note) : Prop :=
  b.updatedAtTs < a.updatedAtTs ∨
    (a.updatedAtTs = b.updatedAtTs ∧ b.title.data ≤ a.title.data)

instance : DecidableRel noteOrder := fun a b =>
  inferInstanceAs (Decidable (_ ∨ _))

instance : IsTotal Note noteOrder where
  total a b := by
    rcases lt_trichotomy a.updatedAtTs b.updatedAtTs with h | h | h
    · exact Or.inr (Or.inl h)
    · rcases le_total a.title.data b.title.data with h2 | h2
      · exact Or.inr (Or.inr ⟨h.symm, h2⟩)
      · exact Or.inl (Or.inr ⟨h, h2⟩)
    · exact Or.inl (Or.inl h)

instance : IsTrans Note noteOrder where
  trans a b c h h2 := by
    rcases h with h | ⟨h, ha⟩ <;> rcases h2 with h2 | ⟨h2, hb⟩
    · exact Or.inl (h2.trans h)
    · exact Or.inl (h2 ▸ h)
    · exact Or.inl (h ▸ h2)
    · exact Or.inr ⟨h.trans h2, hb.trans ha⟩

/-- Assignment `counts[key] = value` on the counts dictionary, modelled as an
insertion-ordered association list. -/
def dictSet (m : List (String × Nat)) (k : String) (v : Nat) : List (String × Nat) :=
  if (m.lookup k).isSome then m.map (fun p => if p.1 = k then (k, v) else p)
  else m ++ [(k, v)]

/-- Lookup `counts.get(key, default)`. -/
def dictGetD (m : List (String × Nat)) (k : String) (v : Nat) : Nat :=
  (m.lookup k).getD v

/-- One iteration of the gathering loop: list and sort the html files of the
category, record its count and metadata, and append its notes. -/
def gatherStep (tz : Int → Int)
    (acc : List Note × List (String × Nat) × List (String × String))
    (c : String × String × DirEnt) :
    List Note × List (String × Nat) × List (String × String) :=
  let files := (globHtml c.2.2.children).insertionSort fileOrder
  (acc.1 ++ files.map (build_note c.2.2.name c.1 c.2.1 tz),
   dictSet acc.2.1 c.1 files.length,
   acc.2.2 ++ [(c.1, c.2.1)])

/-- `gather_notes` from the source: discover categories, gather and sort the
notes, and assemble the document with the synthetic `all` entry first. -/
def gather_notes (root : List DirEnt) (tz : Int → Int) (now : Int) : Doc :=
  let acc := (discover_categories root).foldl (gatherStep tz) ([], [], [])
  let notes := acc.1.insertionSort noteOrder
  { generatedAt := fmtDateTime tz now
    total := notes.length
    categories := { key := "all", name := "全部", count := notes.length } ::
      acc.2.2.map (fun m => { key := m.1, name := m.2, count := dictGetD acc.2.1 m.1 0 })
    notes := notes }

-- temporary end-to-end cross-check against a real run of the script
def testRoot : List DirEnt :=
  [⟨"TimeSeries", true, [⟨"chap1.html", 1700000000⟩, ⟨"chap2.html", 1700000050⟩, ⟨"notes.txt", 1⟩]⟩,
   ⟨"Diffusion", true, [⟨"diffusion-2.html", 1700000100⟩, ⟨"vae.html", 1700000050⟩]⟩,
   ⟨"My Topic!!Area", true, [⟨"intro.html", 1600000000⟩]⟩,
   ⟨"my-topic-area", true, [⟨"My_Notes-V2.html", 1600000000⟩]⟩,
   ⟨".hidden", true, [⟨"x.html", 5⟩]⟩,
   ⟨"assets", true, [⟨"a.html", 5⟩]⟩,
   ⟨"empty", true, [⟨"readme.md", 5⟩]⟩,
   ⟨"scripts", true, [⟨"build_notes_index.py", 1⟩]⟩,
   ⟨"data", true, []⟩]

example : (gather_notes testRoot (fun _ => 0) 0).total = 6 := by decide
example : (gather_notes testRoot (fun _ => 0) 0).categories =
    [⟨"all", "全部", 6⟩, ⟨"timeseries", "时间序列", 2⟩, ⟨"diffusion", "扩散模型", 2⟩,
     ⟨"my-topic-area-2", "my topic area", 1⟩, ⟨"my-topic-area", "My Topic!!Area", 1⟩] := by decide
example : (gather_notes testRoot (fun _ => 0) 0).notes.map Note.id =
    ["diffusion-diffusion-2", "timeseries-chap2", "diffusion-vae", "timeseries-chap1",
     "my-topic-area-intro", "my-topic-area-2-my-notes-v2"] := by decide
example : (gather_notes testRoot (fun _ => 0) 0).notes.map Note.title =
    ["Diffusion 2", "chap2", "VAE", "chap1", "intro", "My Notes V2"] := by decide
example : (gather_notes testRoot (fun _ => 0) 0).notes.map Note.path =
    ["Diffusion/diffusion-2.html", "TimeSeries/chap2.html", "Diffusion/vae.html",
     "TimeSeries/chap1.html", "My Topic!!Area/intro.html", "my-topic-area/My_Notes-V2.html"] := by decide
example : (gather_notes testRoot (fun _ => 0) 0).notes.map Note.updatedAt =
    ["2023-11-14", "2023-11-14", "2023-11-14", "2023-11-14", "2020-09-13", "2020-09-13"] := by decide
example : fmtDateTime (fun _ => 0) 1700000100 = "2023-11-14 22:15:00 +0000" := by decide
example : localDate (fun _ => 0) (-1) = "1969-12-31" := by decide

/-! ### Well-formedness of slugs -/

/-- The characters a slug may contain: `[a-z0-9-]`. -/
def isSlugChar (c : Char) : Bool := isLowerAlnum c || c = '-'

/-- Well-formed slug data: non-empty, only `[a-z0-9-]`, and no hyphen at
either end. -/
def listWF (l : List Char) : Bool :=
  !l.isEmpty && l.all isSlugChar && !(l.head? == some '-') && !(l.getLast? == some '-')

/-- Well-formed slug string. -/
def slugWF (s : String) : Bool := listWF s.data

theorem collapseRuns_slug : ∀ (b : Bool) (l : List Char), ∀ c ∈ collapseRuns b l,
    isSlugChar c = true := by
  intro b l
  induction l generalizing b with
  | nil => intro c hc; simp [collapseRuns] at hc
  | cons x xs ih =>
    intro c hc
    by_cases hx : isLowerAlnum x
    · simp [collapseRuns, hx] at hc
      rcases hc with rfl | hc
      · simp [isSlugChar, hx]
      · exact ih false c hc
    · by_cases hb : b
      · simp [collapseRuns, hx, hb] at hc
        exact ih true c hc
      · simp [collapseRuns, hx, hb] at hc
        rcases hc with rfl | hc
        · decide
        · exact ih true c hc

theorem mem_stripEnds {p : Char → Bool} {l : List Char} {c : Char}
    (h : c ∈ stripEnds p l) : c ∈ l := by
  unfold stripEnds at h
  rw [List.mem_reverse] at h
  have h2 := (List.dropWhile_sublist p).subset h
  rw [List.mem_reverse] at h2
  exact (List.dropWhile_sublist p).subset h2

theorem dropWhile_head_false {p : Char → Bool} :
    ∀ (l : List Char) c t, l.dropWhile p = c :: t → p c = false := by
  intro l
  induction l with
  | nil => intro c t h; simp [List.dropWhile] at h
  | cons x xs ih =>
    intro c t h
    rw [List.dropWhile_cons] at h
    by_cases hx : p x
    · rw [if_pos hx] at h; exact ih c t h
    · rw [if_neg hx] at h
      cases h
      simpa using hx

theorem dropWhile_getLast {p : Char → Bool} :
    ∀ (l : List Char), l.dropWhile p ≠ [] → (l.dropWhile p).getLast? = l.getLast? := by
  intro l
  induction l with
  | nil => intro h; simp [List.dropWhile] at h
  | cons x xs ih =>
    intro h
    rw [List.dropWhile_cons]
    by_cases hx : p x
    · rw [List.dropWhile_cons, if_pos hx] at h
      have hxs : xs ≠ [] := by
        intro he; rw [he] at h; simp [List.dropWhile] at h
      rw [if_pos hx, ih h]
      obtain ⟨y, ys, rfl⟩ := List.exists_cons_of_ne_nil hxs
      rw [List.getLast?_cons_cons]
    · rw [if_neg hx]

theorem stripEnds_ends {p : Char → Bool} (l : List Char) (h : stripEnds p l ≠ []) :
    (∃ c, (stripEnds p l).head? = some c ∧ p c = false) ∧
      (∃ c, (stripEnds p l).getLast? = some c ∧ p c = false) := by
  unfold stripEnds at *
  set m := l.dropWhile p with hm
  set r := m.reverse.dropWhile p with hr
  have hrne : r ≠ [] := by
    intro he; rw [he] at h; simp at h
  obtain ⟨c, t, hct⟩ := List.exists_cons_of_ne_nil hrne
  constructor
  · -- head of the reversal is the last of r, which is the last of m.reverse,
    -- that is the head of m
    have hmne : m ≠ [] := by
      intro he
      rw [he] at hr
      simp [List.dropWhile] at hr
      exact hrne hr
    obtain ⟨c2, t2, hct2⟩ := List.exists_cons_of_ne_nil hmne
    have hlast : r.getLast? = m.reverse.getLast? := dropWhile_getLast _ hrne
    refine ⟨c2, ?_, dropWhile_head_false l c2 t2 (hm ▸ hct2)⟩
    rw [List.head?_reverse, hlast, List.getLast?_reverse, hct2]
    rfl
  · refine ⟨c, ?_, dropWhile_head_false m.reverse c t (hr ▸ hct)⟩
    rw [List.getLast?_reverse, hct]
    rfl

/-! ### Decimal rendering -/

/-- Value of a little-endian digit list. -/
def lval : List Nat → Nat
  | [] => 0
  | d :: ds => d + 10 * lval ds

theorem natDigitsAux_lt : ∀ (f n : Nat), ∀ d ∈ natDigitsAux f n, d < 10 := by
  intro f
  induction f with
  | zero =>
    intro n d hd
    cases n <;> simp [natDigitsAux] at hd
  | succ f ih =>
    intro n d hd
    cases n with
    | zero => simp [natDigitsAux] at hd
    | succ m =>
      simp only [natDigitsAux, List.mem_cons] at hd
      rcases hd with rfl | hd
      · exact Nat.mod_lt _ (by omega)
      · exact ih _ d hd

theorem natDigitsAux_val : ∀ (f n : Nat), n ≤ f → lval (natDigitsAux f n) = n := by
  intro f
  induction f with
  | zero =>
    intro n hn
    interval_cases n
    simp [natDigitsAux, lval]
  | succ f ih =>
    intro n hn
    cases n with
    | zero => simp [natDigitsAux, lval]
    | succ m =>
      have hdiv : (m + 1) / 10 ≤ f := by
        have := Nat.div_lt_self (Nat.succ_pos m) (show 1 < 10 by omega)
        omega
      simp only [natDigitsAux, lval, ih _ hdiv]
      omega

theorem digitChar_inj10 (x y : Nat) (hx : x < 10) (hy : y < 10)
    (h : digitChar x = digitChar y) : x = y := by
  have aux : ∀ a b : Fin 10, digitChar a.val = digitChar b.val → a = b := by decide
  have := aux ⟨x, hx⟩ ⟨y, hy⟩ h
  exact congrArg Fin.val this

theorem digitChar_digit (d : Nat) (hd : d < 10) : isAsciiDigit (digitChar d) = true := by
  have aux : ∀ a : Fin 10, isAsciiDigit (digitChar a.val) = true := by decide
  exact aux ⟨d, hd⟩

theorem isAsciiDigit_slug {c : Char} (h : isAsciiDigit c = true) :
    isSlugChar c = true ∧ c ≠ '-' := by
  constructor
  · simp [isSlugChar, isLowerAlnum, h]
  · intro he
    rw [he] at h
    simp [isAsciiDigit] at h

theorem map_digitChar_inj : ∀ (xs ys : List Nat), (∀ x ∈ xs, x < 10) →
    (∀ y ∈ ys, y < 10) → xs.map digitChar = ys.map digitChar → xs = ys := by
  intro xs
  induction xs with
  | nil =>
    intro ys _ _ h
    cases ys <;> simp_all
  | cons x xs ih =>
    intro ys hx hy h
    cases ys with
    | nil => simp at h
    | cons y ys =>
      simp only [List.map_cons, List.cons.injEq] at h
      have hxy := digitChar_inj10 x y (hx x (by simp)) (hy y (by simp)) h.1
      rw [hxy, ih ys (fun a ha => hx a (by simp [ha])) (fun a ha => hy a (by simp [ha])) h.2]

theorem natToString_data_digits (n : Nat) :
    (natToString n).data ≠ [] ∧ ∀ c ∈ (natToString n).data, isAsciiDigit c = true := by
  unfold natToString
  by_cases h : n = 0
  · subst h
    refine ⟨by decide, ?_⟩
    intro c hc
    simp at hc
    subst hc
    decide
  · rw [if_neg h]
    constructor
    · obtain ⟨m, rfl⟩ := Nat.exists_eq_succ_of_ne_zero h
      simp [natDigitsAux]
    · intro c hc
      simp only [String.data] at hc
      simp only [List.mem_map, List.mem_reverse] at hc
      obtain ⟨d, hd, rfl⟩ := hc
      exact digitChar_digit d (natDigitsAux_lt n n d hd)

theorem natToString_inj (a b : Nat) (h : natToString a = natToString b) : a = b := by
  have hdata : (natToString a).data = (natToString b).data := by rw [h]
  unfold natToString at hdata
  by_cases ha : a = 0 <;> by_cases hb : b = 0
  · omega
  · exfalso
    rw [if_pos ha, if_neg hb] at hdata
    have hb2 := natToString_data_digits b
    unfold natToString at hb2
    rw [if_neg hb] at hb2
    have : ("0" : String).data = ['0'] := by decide
    rw [this] at hdata
    have hrev : (natDigitsAux b b).reverse.map digitChar = ['0'] := hdata.symm
    have : (natDigitsAux b b).reverse = [0] := by
      have h0 : ([0] : List Nat).map digitChar = ['0'] := by decide
      exact map_digitChar_inj _ [0]
        (fun x hx => natDigitsAux_lt b b x (by simpa using hx))
        (by intro y hy; simp at hy; omega) (by rw [hrev, h0])
    have hlist : natDigitsAux b b = [0] := by
      have := congrArg List.reverse this
      simpa using this
    have := natDigitsAux_val b b (le_refl b)
    rw [hlist] at this
    simp [lval] at this
    omega
  · exfalso
    rw [if_neg ha, if_pos hb] at hdata
    have : ("0" : String).data = ['0'] := by decide
    rw [this] at hdata
    have hdata2 : List.map digitChar (natDigitsAux a a).reverse = ['0'] := hdata
    have : (natDigitsAux a a).reverse = [0] := by
      have h0 : ([0] : List Nat).map digitChar = ['0'] := by decide
      exact map_digitChar_inj _ [0]
        (fun x hx => natDigitsAux_lt a a x (by simpa using hx))
        (by intro y hy; simp at hy; omega) (by rw [hdata2, h0])
    have hlist : natDigitsAux a a = [0] := by
      have := congrArg List.reverse this
      simpa using this
    have := natDigitsAux_val a a (le_refl a)
    rw [hlist] at this
    simp [lval] at this
    omega
  · rw [if_neg ha, if_neg hb] at hdata
    have hdata2 : List.map digitChar (natDigitsAux a a).reverse =
        List.map digitChar (natDigitsAux b b).reverse := hdata
    have := map_digitChar_inj (natDigitsAux a a).reverse (natDigitsAux b b).reverse
      (fun x hx => natDigitsAux_lt a a x (by simpa using hx))
      (fun y hy => natDigitsAux_lt b b y (by simpa using hy)) hdata2
    have hab : natDigitsAux a a = natDigitsAux b b := by
      have := congrArg List.reverse this
      simpa using this
    have hva := natDigitsAux_val a a (le_refl a)
    have hvb := natDigitsAux_val b b (le_refl b)
    rw [hab, hvb] at hva
    exact hva.symm

/-! ### Hexadecimal digits -/

theorem hexChar_slug (v : Nat) : isSlugChar (hexChar v) = true ∧ hexChar v ≠ '-' := by
  have h16 : v % 16 % 16 = v % 16 := by omega
  have hm : hexChar v = hexChar (v % 16) := by
    simp only [hexChar, h16]
  have aux : ∀ a : Fin 16, isSlugChar (hexChar a.val) = true ∧ hexChar a.val ≠ '-' := by decide
  have hlt : v % 16 < 16 := Nat.mod_lt _ (by omega)
  rw [hm]
  exact aux ⟨v % 16, hlt⟩

theorem mem_bytesToHex {c : Char} {bs : List Nat} (h : c ∈ bytesToHex bs) :
    ∃ v, c = hexChar v := by
  unfold bytesToHex at h
  simp only [List.mem_flatMap] at h
  obtain ⟨b, _, hc⟩ := h
  simp at hc
  rcases hc with rfl | rfl
  · exact ⟨b / 16, rfl⟩
  · exact ⟨b, rfl⟩

theorem bytesToHex_len (bs : List Nat) : (bytesToHex bs).length = 2 * bs.length := by
  induction bs with
  | nil => simp [bytesToHex]
  | cons b bs ih =>
    simp only [bytesToHex, List.flatMap_cons] at *
    simp [ih]
    omega

theorem md5hex8_len (s : String) : (md5hex8 s).length = 8 := by
  unfold md5hex8 md5Digest
  rw [List.length_take, bytesToHex_len]
  simp [le4]

/-! ### Collision resolution of category keys -/

theorem string_ext {s t : String} (h : s.data = t.data) : s = t := by
  cases s; cases t; simp_all

/-- Data of a suffixed candidate key. -/
theorem cand_data (base : String) (i : Nat) :
    (base ++ "-" ++ natToString i).data = base.data ++ '-' :: (natToString i).data := by
  simp [String.data_append]

theorem cand_inj (base : String) (i j : Nat)
    (h : base ++ "-" ++ natToString i = base ++ "-" ++ natToString j) : i = j := by
  have hd := congrArg String.data h
  rw [cand_data, cand_data] at hd
  have h2 := List.append_cancel_left hd
  have h3 : (natToString i).data = (natToString j).data := by
    injection h2
  exact natToString_inj i j (string_ext h3)

theorem listWF_iff (l : List Char) : listWF l = true ↔
    l ≠ [] ∧ (∀ c ∈ l, isSlugChar c = true) ∧ l.head? ≠ some '-' ∧
      l.getLast? ≠ some '-' := by
  simp only [listWF, List.isEmpty_iff, Bool.and_eq_true, Bool.not_eq_true',
    beq_iff_eq, decide_eq_true_eq, List.all_eq_true, Bool.not_eq_eq_eq_not]
  constructor
  · intro h
    exact ⟨by simpa using h.1.1.1, h.1.1.2, by simpa using h.1.2, by simpa using h.2⟩
  · intro h
    exact ⟨⟨⟨by simpa using h.1, h.2.1⟩, by simpa using h.2.2.1⟩, by simpa using h.2.2.2⟩

theorem slugWF_cand (base : String) (j : Nat) (h : slugWF base = true) :
    slugWF (base ++ "-" ++ natToString j) = true := by
  unfold slugWF at *
  rw [listWF_iff] at h ⊢
  obtain ⟨hne, hall, hhead, _⟩ := h
  obtain ⟨hjne, hjdig⟩ := natToString_data_digits j
  rw [cand_data]
  refine ⟨by simp, ?_, ?_, ?_⟩
  · intro c hc
    simp only [List.mem_append, List.mem_cons] at hc
    rcases hc with hc | rfl | hc
    · exact hall c hc
    · decide
    · exact (isAsciiDigit_slug (hjdig c hc)).1
  · obtain ⟨c, t, hct⟩ := List.exists_cons_of_ne_nil hne
    rw [hct]
    simp only [List.cons_append, List.head?_cons]
    rw [hct] at hhead
    simpa using hhead
  · rw [List.getLast?_append]
    obtain ⟨c, t, hct⟩ := List.exists_cons_of_ne_nil hjne
    have hmem := List.getLast_mem (l := (natToString j).data) (by simp [hct])
    have hlast := List.getLast?_eq_getLast (natToString j).data (by simp [hct])
    rw [List.getLast?_cons, hlast]
    simp only [Option.getD_some, Option.or_some]  -- hmm placeholder
    intro he
    have : List.getLast (natToString j).data (by simp [hct]) = '-' := by
      injection he
    rw [this] at hmem
    exact (isAsciiDigit_slug (hjdig _ hmem)).2 rfl

theorem resolveLoop_form (base : String) (used : List String) :
    ∀ fuel suffix, ∃ j, resolveLoop base used suffix fuel = base ++ "-" ++ natToString j := by
  intro fuel
  induction fuel with
  | zero => intro suffix; exact ⟨suffix, rfl⟩
  | succ f ih =>
    intro suffix
    unfold resolveLoop
    by_cases hk : base ++ "-" ++ natToString suffix ∈ used
    · simpa [hk] using ih (suffix + 1)
    · exact ⟨suffix, by simp [hk]⟩

theorem resolveLoop_not_mem (base : String) (used : List String) :
    ∀ fuel suffix, (∃ i, i < fuel ∧ base ++ "-" ++ natToString (suffix + i) ∉ used) →
      resolveLoop base used suffix fuel ∉ used := by
  intro fuel
  induction fuel with
  | zero =>
    intro suffix h
    obtain ⟨i, hi, _⟩ := h
    omega
  | succ f ih =>
    intro suffix h
    unfold resolveLoop
    by_cases hk : base ++ "-" ++ natToString suffix ∈ used
    · simp only [hk, if_true]
      apply ih
      obtain ⟨i, hi, hni⟩ := h
      cases i with
      | zero => exact absurd (by simpa using hk) (by simpa using hni)
      | succ i2 =>
        refine ⟨i2, by omega, ?_⟩
        have : suffix + 1 + i2 = suffix + (i2 + 1) := by omega
        rw [this]
        exact hni
    · simp only [hk, if_false, Bool.false_eq_true]
      exact not_false

theorem exists_fresh (base : String) (used : List String) (suffix : Nat) :
    ∃ i, i < used.length + 1 ∧ base ++ "-" ++ natToString (suffix + i) ∉ used := by
  by_contra hcon
  push_neg at hcon
  set L := (List.range (used.length + 1)).map
    (fun i => base ++ "-" ++ natToString (suffix + i)) with hL
  have hnodup : L.Nodup := by
    refine List.Nodup.map_on ?_ (List.nodup_range _)
    intro x _ y _ hxy
    have := cand_inj base (suffix + x) (suffix + y) hxy
    omega
  have hsub : ∀ x ∈ L, x ∈ used := by
    intro x hx
    rw [hL, List.mem_map] at hx
    obtain ⟨i, hi, rfl⟩ := hx
    exact hcon i (by simpa using hi)
  have hcard : L.toFinset.card = used.length + 1 := by
    rw [List.toFinset_card_of_nodup hnodup, hL]
    simp
  have hsubF : L.toFinset ⊆ used.toFinset := by
    intro x hx
    rw [List.mem_toFinset] at hx ⊢
    exact hsub x hx
  have := Finset.card_le_card hsubF
  have := List.toFinset_card_le used
  omega

theorem resolveKey_not_mem (base : String) (used : List String) :
    resolveKey base used ∉ used := by
  unfold resolveKey
  by_cases hb : base ∈ used
  · rw [if_pos hb]
    exact resolveLoop_not_mem base used _ 2 (exists_fresh base used 2)
  · rw [if_neg hb]
    exact hb

theorem resolveKey_wf (base : String) (used : List String) (h : slugWF base = true) :
    slugWF (resolveKey base used) = true := by
  unfold resolveKey
  by_cases hb : base ∈ used
  · rw [if_pos hb]
    obtain ⟨j, hj⟩ := resolveLoop_form base used (used.length + 1) 2
    rw [hj]
    exact slugWF_cand base j h
  · rw [if_neg hb]
    exact h

theorem mem_dropWhile_of_false {p : Char → Bool} {c : Char} :
    ∀ {l : List Char}, c ∈ l → p c = false → c ∈ l.dropWhile p := by
  intro l
  induction l with
  | nil => intro h _; simp at h
  | cons x xs ih =>
    intro h hp
    rw [List.dropWhile_cons]
    by_cases hx : p x
    · rw [if_pos hx]
      rcases List.mem_cons.mp h with rfl | h2
      · rw [hp] at hx; simp at hx
      · exact ih h2 hp
    · rw [if_neg hx]
      exact h

theorem stripEnds_ne_nil {p : Char → Bool} {c : Char} {l : List Char}
    (hc : c ∈ l) (hp : p c = false) : stripEnds p l ≠ [] := by
  unfold stripEnds
  intro he
  have h1 : c ∈ l.dropWhile p := mem_dropWhile_of_false hc hp
  have h2 : c ∈ (l.dropWhile p).reverse := by simpa using h1
  have h3 : c ∈ (l.dropWhile p).reverse.dropWhile p := mem_dropWhile_of_false h2 hp
  rw [List.reverse_eq_nil_iff.mp he] at h3
  simp at h3

theorem stripEnds_wf (l : List Char) (h : ∀ c ∈ l, isSlugChar c = true)
    (hne : stripEnds (fun c => c = '-') l ≠ []) :
    listWF (stripEnds (fun c => c = '-') l) = true := by
  rw [listWF_iff]
  obtain ⟨⟨c1, hc1, hp1⟩, c2, hc2, hp2⟩ := stripEnds_ends l hne
  refine ⟨hne, fun c hc => h c (mem_stripEnds hc), ?_, ?_⟩
  · rw [hc1]
    intro he
    have : c1 = '-' := by injection he
    rw [this] at hp1
    simp at hp1
  · rw [hc2]
    intro he
    have : c2 = '-' := by injection he
    rw [this] at hp2
    simp at hp2

theorem slugify_wf (name : String) : slugWF (slugify_category_key name) = true := by
  rw [slugify_category_key]
  cases hk : (stripEnds (fun c => c = '-')
      (collapseRuns false (name.data.map pyLowerChar))).isEmpty with
  | false =>
    simp only [hk, Bool.not_false, if_true]
    exact stripEnds_wf (collapseRuns false (name.data.map pyLowerChar))
      (fun c hc => collapseRuns_slug false _ c hc)
      (by intro he; rw [he] at hk; simp at hk)
  | true =>
    simp only [hk, Bool.not_true, Bool.false_eq_true, if_false]
    unfold slugWF
    rw [listWF_iff]
    have hdata : ("cat-" ++ String.mk (md5hex8 name)).data =
        'c' :: 'a' :: 't' :: '-' :: md5hex8 name := by
      rw [String.data_append]
      rfl
    rw [hdata]
    have hhex : ∀ c ∈ md5hex8 name, ∃ v, c = hexChar v := by
      intro c hc
      exact mem_bytesToHex ((List.take_sublist _ _).subset hc)
    have hne : md5hex8 name ≠ [] := by
      intro he
      have := md5hex8_len name
      rw [he] at this
      simp at this
    refine ⟨by simp, ?_, by simp, ?_⟩
    · intro c hc
      simp only [List.mem_cons] at hc
      rcases hc with rfl | rfl | rfl | rfl | hc
      · decide
      · decide
      · decide
      · decide
      · obtain ⟨v, rfl⟩ := hhex c hc
        exact (hexChar_slug v).1
    · have hsplit : ('c' :: 'a' :: 't' :: '-' :: md5hex8 name) =
          ['c', 'a', 't', '-'] ++ md5hex8 name := by simp
      rw [hsplit, List.getLast?_append]
      have hlast := List.getLast?_eq_getLast (md5hex8 name) hne
      rw [hlast, Option.or_some]
      intro he
      have hm := List.getLast_mem hne
      obtain ⟨v, hv⟩ := hhex _ hm
      have hx : List.getLast (md5hex8 name) hne = '-' := by injection he
      rw [hx] at hv
      exact (hexChar_slug v).2 hv.symm

theorem build_id_wf (key : String) (hk : slugWF key = true) (stem : List Char) :
    listWF (stripEnds (fun c => c = '-')
      (collapseRuns false (key.data ++ '-' :: stem.map pyLowerChar))) = true := by
  unfold slugWF at hk
  rw [listWF_iff] at hk
  obtain ⟨hne, hall, hhead, _⟩ := hk
  obtain ⟨c, t, hct⟩ := List.exists_cons_of_ne_nil hne
  have hcs : isSlugChar c = true := hall c (by simp [hct])
  have hcd : c ≠ '-' := by
    intro he
    rw [hct, he] at hhead
    simp at hhead
  have hca : isLowerAlnum c = true := by
    unfold isSlugChar at hcs
    rcases Bool.or_eq_true_iff.mp hcs with h | h
    · exact h
    · exact absurd (by simpa using h) hcd
  have hmem : c ∈ collapseRuns false (key.data ++ '-' :: stem.map pyLowerChar) := by
    rw [hct]
    simp only [List.cons_append, collapseRuns, hca, if_true]
    simp
  apply stripEnds_wf
  · intro c2 hc2
    exact collapseRuns_slug false _ c2 hc2
  · exact stripEnds_ne_nil hmem (by simp [hcd])

/-! ### Discovery -/

theorem discoverAux_mem : ∀ (dirs : List DirEnt) (used : List String)
    (x : String × String × DirEnt), x ∈ discoverAux dirs used →
    keepDir x.2.2 = true ∧ x.2.2 ∈ dirs ∧
      x.2.1 = prettify_category_name x.2.2.name ∧ slugWF x.1 = true := by
  intro dirs
  induction dirs with
  | nil => intro used x hx; simp [discoverAux] at hx
  | cons d rest ih =>
    intro used x hx
    unfold discoverAux at hx
    by_cases hd : keepDir d
    · rw [if_pos hd] at hx
      rcases List.mem_cons.mp hx with rfl | hx2
      · exact ⟨hd, by simp, rfl, resolveKey_wf _ _ (slugify_wf d.name)⟩
      · obtain ⟨h1, h2, h3, h4⟩ := ih _ x hx2
        exact ⟨h1, by simp [h2], h3, h4⟩
    · rw [if_neg hd] at hx
      obtain ⟨h1, h2, h3, h4⟩ := ih _ x hx
      exact ⟨h1, by simp [h2], h3, h4⟩

theorem discoverAux_keys : ∀ (dirs : List DirEnt) (used : List String),
    ((discoverAux dirs used).map (fun x => x.1)).Nodup ∧
      ∀ k ∈ (discoverAux dirs used).map (fun x => x.1), k ∉ used := by
  intro dirs
  induction dirs with
  | nil => intro used; simp [discoverAux]
  | cons d rest ih =>
    intro used
    unfold discoverAux
    by_cases hd : keepDir d
    · rw [if_pos hd]
      obtain ⟨ihn, ihm⟩ := ih (resolveKey (slugify_category_key d.name) used :: used)
      simp only [List.map_cons, List.nodup_cons]
      refine ⟨⟨?_, ihn⟩, ?_⟩
      · intro hmem
        have := ihm _ hmem
        simp at this
      · intro k hk
        rcases List.mem_cons.mp hk with rfl | hk2
        · exact resolveKey_not_mem _ _
        · intro hku
          exact ihm k hk2 (by simp [hku])
    · rw [if_neg hd]
      exact ih used

theorem discover_mem (root : List DirEnt) (x : String × String × DirEnt)
    (hx : x ∈ discover_categories root) :
    keepDir x.2.2 = true ∧ x.2.2 ∈ root ∧
      x.2.1 = prettify_category_name x.2.2.name ∧ slugWF x.1 = true := by
  unfold discover_categories at hx
  rw [(List.perm_insertionSort catOrder _).mem_iff] at hx
  obtain ⟨h1, h2, h3, h4⟩ := discoverAux_mem _ [] x hx
  rw [(List.perm_insertionSort dirOrder root).mem_iff] at h2
  exact ⟨h1, h2, h3, h4⟩

theorem discover_keys_nodup (root : List DirEnt) :
    ((discover_categories root).map (fun x => x.1)).Nodup := by
  unfold discover_categories
  have hperm := (List.perm_insertionSort catOrder
    (discoverAux (root.insertionSort dirOrder) [])).map (fun x => x.1)
  rw [hperm.nodup_iff]
  exact (discoverAux_keys _ []).1

/-- Claim C4: every derived category key is a non-empty string over
`[a-z0-9-]` with no hyphen at either end, and the keys of one run are
pairwise distinct (collisions having been resolved by numeric suffixes). -/
theorem categoryKey_wf_and_unique (root : List DirEnt) :
    ((discover_categories root).map (fun x => x.1)).Nodup ∧
      (discover_categories root).all (fun x => slugWF x.1) = true := by
  refine ⟨discover_keys_nodup root, ?_⟩
  rw [List.all_eq_true]
  intro x hx
  exact (discover_mem root x hx).2.2.2

/-- Claim C5: `discover_categories` returns only directories, never dot-named
or ignored names, and never a directory without `.html` entries. -/
theorem discover_filters (root : List DirEnt) :
    (discover_categories root).all (fun x =>
      x.2.2.isDir && !startsWithDot x.2.2.name &&
        !(IGNORED_DIRS.contains x.2.2.name) && !(globHtml x.2.2.children).isEmpty) = true := by
  rw [List.all_eq_true]
  intro x hx
  exact (discover_mem root x hx).1

/-- Claim C6: in the discovered list, priority keys come first in the order of
the priority list, and all remaining ties are broken by the case-insensitive
display name; `hintRank` is position in the priority list, or its length for
keys outside it. -/
theorem discover_order (root : List DirEnt) :
    (discover_categories root).Pairwise (fun a b =>
      hintRank a.1 ≤ hintRank b.1 ∧
        (hintRank a.1 = hintRank b.1 → lowerName a.2.1 ≤ lowerName b.2.1)) := by
  have hs := List.sorted_insertionSort catOrder
    (discoverAux ((List.insertionSort dirOrder root)) [])
  refine List.Pairwise.imp ?_ hs
  intro a b hab
  rcases hab with hlt | ⟨heq, hle⟩
  · exact ⟨Nat.le_of_lt hlt, fun heq => absurd heq (Nat.ne_of_lt hlt)⟩
  · exact ⟨Nat.le_of_eq heq, fun _ => hle⟩

/-! ### Gathering -/

/-- The sorted html files of one discovered category. -/
def catFiles (c : String × String × DirEnt) : List FileEnt :=
  (globHtml c.2.2.children).insertionSort fileOrder

/-- The notes of one discovered category. -/
def catNotes (tz : Int → Int) (c : String × String × DirEnt) : List Note :=
  (catFiles c).map (build_note c.2.2.name c.1 c.2.1 tz)

theorem lookup_none_of_not_mem {k : String} :
    ∀ {m : List (String × Nat)}, k ∉ m.map Prod.fst → List.lookup k m = none := by
  intro m
  induction m with
  | nil => intro _; rfl
  | cons p rest ih =>
    intro h
    simp only [List.map_cons, List.mem_cons] at h
    push_neg at h
    rw [List.lookup_cons]
    have : (k == p.1) = false := by
      simp [h.1]
    rw [this]
    exact ih h.2

theorem dictSet_append {m : List (String × Nat)} {k : String} {v : Nat}
    (h : k ∉ m.map Prod.fst) : dictSet m k v = m ++ [(k, v)] := by
  unfold dictSet
  rw [lookup_none_of_not_mem h]
  rfl

theorem gather_fold (tz : Int → Int) :
    ∀ (cats : List (String × String × DirEnt))
      (acc : List Note × List (String × Nat) × List (String × String)),
      (∀ c ∈ cats, c.1 ∉ acc.2.1.map Prod.fst) →
      (cats.map (fun c => c.1)).Nodup →
      cats.foldl (gatherStep tz) acc =
        (acc.1 ++ cats.flatMap (fun c => catNotes tz c),
         acc.2.1 ++ cats.map (fun c => (c.1, (catFiles c).length)),
         acc.2.2 ++ cats.map (fun c => (c.1, c.2.1))) := by
  intro cats
  induction cats with
  | nil => intro acc _ _; simp
  | cons a rest ih =>
    intro acc hmem hnodup
    rw [List.foldl_cons]
    have hstep : gatherStep tz acc a =
        (acc.1 ++ catNotes tz a, acc.2.1 ++ [(a.1, (catFiles a).length)],
          acc.2.2 ++ [(a.1, a.2.1)]) := by
      simp only [gatherStep]
      rw [dictSet_append (hmem a (by simp))]
      rfl
    rw [hstep]
    rw [List.map_cons, List.nodup_cons] at hnodup
    have hmem2 : ∀ c ∈ rest, c.1 ∉ (acc.2.1 ++ [(a.1, (catFiles a).length)]).map Prod.fst := by
      intro c hc
      simp only [List.map_append, List.mem_append, List.map_cons, List.mem_singleton]
      push_neg
      refine ⟨hmem c (by simp [hc]), ?_⟩
      intro he
      simp only [List.map_nil, List.mem_cons] at he
      rcases he with he | he
      · exact hnodup.1 (he ▸ List.mem_map_of_mem (fun c => c.1) hc)
      · simp at he
    rw [ih _ hmem2 hnodup.2]
    simp

theorem lookup_cons_ne {k k2 : String} {v : Nat} {m : List (String × Nat)}
    (h : k ≠ k2) : List.lookup k ((k2, v) :: m) = List.lookup k m := by
  rw [List.lookup_cons]
  have : (k == k2) = false := by simp [h]
  rw [this]

theorem counts_sum : ∀ (cats : List (String × String × DirEnt)),
    (cats.map (fun c => c.1)).Nodup →
    (cats.map (fun m => dictGetD
      (cats.map (fun c => (c.1, (catFiles c).length))) m.1 0)).sum =
      (cats.map (fun c => (catFiles c).length)).sum := by
  intro cats
  have general : ∀ (l cnts : List (String × String × DirEnt)),
      (l.map (fun c => c.1)).Nodup →
      (∀ c ∈ l, List.lookup c.1 (cnts.map (fun c => (c.1, (catFiles c).length))) =
        List.lookup c.1 (l.map (fun c => (c.1, (catFiles c).length)))) →
      (l.map (fun m => dictGetD
        (cnts.map (fun c => (c.1, (catFiles c).length))) m.1 0)).sum =
        (l.map (fun c => (catFiles c).length)).sum := by
    intro l
    induction l with
    | nil => intro cnts _ _; simp
    | cons a rest ih =>
      intro cnts hnodup hlook
      rw [List.map_cons, List.nodup_cons] at hnodup
      simp only [List.map_cons, List.sum_cons]
      have hhead : dictGetD (cnts.map (fun c => (c.1, (catFiles c).length))) a.1 0 =
          (catFiles a).length := by
        unfold dictGetD
        rw [hlook a (by simp)]
        simp only [List.map_cons, List.lookup_cons]
        simp
      rw [hhead]
      have htail : rest.map (fun m => dictGetD
          (cnts.map (fun c => (c.1, (catFiles c).length))) m.1 0) =
          rest.map (fun m => dictGetD
            (rest.map (fun c => (c.1, (catFiles c).length))) m.1 0) := by
        apply List.map_congr_left
        intro m hm
        unfold dictGetD
        rw [hlook m (by simp [hm])]
        simp only [List.map_cons]
        rw [lookup_cons_ne]
        intro he
        exact hnodup.1 (he ▸ List.mem_map_of_mem (fun c => c.1) hm)
      rw [htail, ih rest hnodup.2 (fun c _ => rfl)]
  intro hnodup
  exact general cats cats hnodup (fun c _ => rfl)

/-- Claim C1 (amended): `total` equals the number of notes, the leading
synthetic `all` entry counts them all, and the counts of the remaining
category entries (those after the synthetic one) sum to the total.  The
key-based reading of the original claim fails when a directory is named
`all`; see the counterexample. -/
theorem total_and_counts (root : List DirEnt) (tz : Int → Int) (now : Int) :
    (gather_notes root tz now).total = (gather_notes root tz now).notes.length ∧
      (gather_notes root tz now).categories.head? =
        some ⟨"all", "全部", (gather_notes root tz now).total⟩ ∧
      (((gather_notes root tz now).categories.tail).map (fun c => c.count)).sum =
        (gather_notes root tz now).total := by
  have hfold := gather_fold tz (discover_categories root) ([], [], [])
    (by intro c _; simp) (discover_keys_nodup root)
  refine ⟨rfl, rfl, ?_⟩
  unfold gather_notes
  rw [hfold]
  simp only [List.nil_append, List.tail_cons, List.map_map, Function.comp_def]
  rw [counts_sum _ (discover_keys_nodup root)]
  rw [(List.perm_insertionSort noteOrder _).length_eq, List.length_flatMap]
  congr 1
  apply List.map_congr_left
  intro c _
  simp [catNotes]

/-- Counterexample to claim C1 as stated: with a directory named `all`, the
sum of the counts over entries whose key differs from `all` is `0`, not the
total `1`, because the real category shares the key of the synthetic entry. -/
theorem total_counts_cex :
    (gather_notes [⟨"all", true, [⟨"x.html", 100⟩]⟩] (fun _ => 0) 0).total = 1 ∧
      (((gather_notes [⟨"all", true, [⟨"x.html", 100⟩]⟩] (fun _ => 0) 0).categories.filter
        (fun c => !(c.key == "all"))).map (fun c => c.count)).sum = 0 := by decide

/-- Claim C3: the notes list is sorted descending in `(updatedAtTs, title)`:
an earlier note never has a smaller timestamp, and on equal timestamps the
earlier note has the lexicographically later (or equal) title. -/
theorem notes_sorted_desc (root : List DirEnt) (tz : Int → Int) (now : Int) :
    (gather_notes root tz now).notes.Pairwise (fun a b =>
      b.updatedAtTs ≤ a.updatedAtTs ∧
        (a.updatedAtTs = b.updatedAtTs → b.title.data ≤ a.title.data)) := by
  have hfold := gather_fold tz (discover_categories root) ([], [], [])
    (by intro c _; simp) (discover_keys_nodup root)
  have hnotes : (gather_notes root tz now).notes =
      ((discover_categories root).flatMap (fun c => catNotes tz c)).insertionSort
        noteOrder := by
    unfold gather_notes
    rw [hfold]
    simp
  rw [hnotes]
  refine List.Pairwise.imp ?_ (List.sorted_insertionSort noteOrder _)
  intro a b hab
  rcases hab with hlt | ⟨heq, hle⟩
  · refine ⟨le_of_lt hlt, fun heq2 => ?_⟩
    exact absurd heq2.symm (ne_of_lt hlt)
  · exact ⟨le_of_eq heq.symm, fun _ => hle⟩

/-- Claim C9: the document is a function of the modelled filesystem state and
timezone alone; two runs at different wall-clock instants agree on every field
except `generatedAt`. -/
theorem run_deterministic (root : List DirEnt) (tz : Int → Int) (now now2 : Int) :
    (gather_notes root tz now).total = (gather_notes root tz now2).total ∧
      (gather_notes root tz now).categories = (gather_notes root tz now2).categories ∧
      (gather_notes root tz now).notes = (gather_notes root tz now2).notes :=
  ⟨rfl, rfl, rfl⟩

/-- Claim C10: every note id is a non-empty hyphen-trimmed string over
`[a-z0-9-]` (the non-empty category key is prepended before collapsing), and
note ids are not guaranteed unique: two files `foo.html` and `foo!.html` of
one category produce the same id. -/
theorem note_ids_wf_not_unique :
    (∀ (root : List DirEnt) (tz : Int → Int) (now : Int),
      (gather_notes root tz now).notes.all (fun n => slugWF n.id) = true) ∧
      ¬ ((gather_notes [⟨"A", true, [⟨"foo.html", 0⟩, ⟨"foo!.html", 0⟩]⟩]
          (fun _ => 0) 0).notes.map (fun n => n.id)).Nodup := by
  constructor
  · intro root tz now
    rw [List.all_eq_true]
    intro n hn
    have hfold := gather_fold tz (discover_categories root) ([], [], [])
      (by intro c _; simp) (discover_keys_nodup root)
    have hnotes : (gather_notes root tz now).notes =
        ((discover_categories root).flatMap (fun c => catNotes tz c)).insertionSort
          noteOrder := by
      unfold gather_notes
      rw [hfold]
      simp
    rw [hnotes, (List.perm_insertionSort noteOrder _).mem_iff, List.mem_flatMap] at hn
    obtain ⟨c, hc, hnc⟩ := hn
    unfold catNotes at hnc
    rw [List.mem_map] at hnc
    obtain ⟨f, _, rfl⟩ := hnc
    exact build_id_wf c.1 (discover_mem root c hc).2.2.2 (pyStem f.name.data)
  · decide

/-! ### The title regexes -/

theorem matchLit_iff : ∀ (p s r : List Char), matchLit p s = some r ↔ s = p ++ r := by
  intro p
  induction p with
  | nil =>
    intro s r
    simp [matchLit]
  | cons x ps ih =>
    intro s r
    cases s with
    | nil => simp [matchLit]
    | cons c cs =>
      simp only [matchLit]
      by_cases hc : c = x
      · subst hc
        simp [ih]
      · simp [hc]

theorem pyLower_fix (c e : Char) (h : pyLowerChar c = e) :
    ('a' ≤ e ∧ e ≤ 'z') ∨ c = e := by
  unfold pyLowerChar at h
  split at h <;> first
    | (subst h; exact Or.inl (by decide))
    | exact Or.inr h

theorem pyLower_digit_self {c : Char} (h : isAsciiDigit c = true) :
    pyLowerChar c = c := by
  unfold pyLowerChar
  split <;> first
    | rfl
    | exact absurd h (by decide)

theorem digit_of_pyLower {c : Char} (h : isAsciiDigit (pyLowerChar c) = true) :
    isAsciiDigit c = true := by
  unfold pyLowerChar at h
  split at h <;> first
    | exact h
    | exact absurd h (by decide)

theorem map_lower_digits {d : List Char} (h : ∀ c ∈ d, isAsciiDigit c = true) :
    d.map pyLowerChar = d := by
  have := List.map_congr_left (f := pyLowerChar) (g := id)
    (l := d) (fun c hc => pyLower_digit_self (h c hc))
  simpa using this

theorem digitsOk_true {d : List Char} (hd : d ≠ [])
    (hdig : ∀ c ∈ d, isAsciiDigit c = true) : digitsOk d = true := by
  have hemp : d.isEmpty = false := by
    cases d with
    | nil => exact absurd rfl hd
    | cons c cs => rfl
  simp only [digitsOk, hemp, Bool.not_false, Bool.true_and, List.all_eq_true]
  exact hdig

/-- Spec-side reading of the chapter pattern: the stem splits into a piece
lower-casing to `chap`, a piece lower-casing to `ter` or `er`, and a non-empty
run of digits. -/
def chapDecomp (s : List Char) : Prop :=
  ∃ p m d, s = p ++ m ++ d ∧ p.map pyLowerChar = ['c', 'h', 'a', 'p'] ∧
    (m.map pyLowerChar = ['t', 'e', 'r'] ∨ m.map pyLowerChar = ['e', 'r']) ∧
    d ≠ [] ∧ ∀ c ∈ d, isAsciiDigit c = true

/-- Spec-side reading of the diffusion pattern: the stem splits into a piece
lower-casing to `diffusion`, an optional single separator, and a non-empty run
of digits. -/
def diffDecomp (s : List Char) : Prop :=
  ∃ p sep d, s = p ++ sep ++ d ∧
    p.map pyLowerChar = ['d', 'i', 'f', 'f', 'u', 's', 'i', 'o', 'n'] ∧
    (sep = [] ∨ sep = ['-'] ∨ sep = ['_'] ∨ sep = [' ']) ∧
    d ≠ [] ∧ ∀ c ∈ d, isAsciiDigit c = true

theorem digitsOk_parts {r : List Char} (h : digitsOk r = true) :
    r ≠ [] ∧ ∀ c ∈ r, isAsciiDigit c = true := by
  simp only [digitsOk, Bool.and_eq_true, Bool.not_eq_true', List.isEmpty_iff,
    List.all_eq_true] at h
  exact ⟨by simpa using h.1, h.2⟩

theorem chapAlt_sound {r1 r : List Char} (h : chapAlt r1 = some r) :
    r1 = ['e', 'r'] ++ r ∧ digitsOk r = true := by
  unfold chapAlt at h
  split at h
  · split at h
    · rename_i r2 h2 hd
      cases h
      exact ⟨(matchLit_iff _ _ _).mp h2, hd⟩
    · simp at h
  · simp at h

theorem chapMatch_sound {l r : List Char} (h : chapMatch l = some r) :
    ∃ m, l = ['c', 'h', 'a', 'p'] ++ m ++ r ∧
      (m = ['t', 'e', 'r'] ∨ m = ['e', 'r']) ∧ digitsOk r = true := by
  unfold chapMatch at h
  split at h
  · simp at h
  · rename_i r1 h1
    have hl := (matchLit_iff _ _ _).mp h1
    split at h
    · rename_i r2 h2
      have hr1 := (matchLit_iff _ _ _).mp h2
      split at h
      · rename_i hd
        cases h
        exact ⟨['t', 'e', 'r'], by rw [hl, hr1]; simp, Or.inl rfl, hd⟩
      · obtain ⟨hr1b, hdb⟩ := chapAlt_sound h
        exact ⟨['e', 'r'], by rw [hl, hr1b]; simp, Or.inr rfl, hdb⟩
    · obtain ⟨hr1b, hdb⟩ := chapAlt_sound h
      exact ⟨['e', 'r'], by rw [hl, hr1b]; simp, Or.inr rfl, hdb⟩

theorem diffMatch_sound {l r : List Char} (h : diffMatch l = some r) :
    ∃ sep, l = ['d', 'i', 'f', 'f', 'u', 's', 'i', 'o', 'n'] ++ sep ++ r ∧
      (sep = [] ∨ sep = ['-'] ∨ sep = ['_'] ∨ sep = [' ']) ∧ digitsOk r = true := by
  unfold diffMatch at h
  split at h
  · simp at h
  · rename_i r1 h1
    have hl := (matchLit_iff _ _ _).mp h1
    split at h
    · simp at h
    · rename_i c rest
      split at h
      · rename_i hsep
        cases h
        rw [Bool.and_eq_true] at hsep
        have hc : c = '-' ∨ c = '_' ∨ c = ' ' := by
          rcases Bool.or_eq_true_iff.mp hsep.1 with h2 | h2
          · rcases Bool.or_eq_true_iff.mp h2 with h3 | h3
            · exact Or.inl (by simpa using h3)
            · exact Or.inr (Or.inl (by simpa using h3))
          · exact Or.inr (Or.inr (by simpa using h2))
        rcases hc with rfl | rfl | rfl
        · exact ⟨['-'], by rw [hl]; simp, by simp, hsep.2⟩
        · exact ⟨['_'], by rw [hl]; simp, by simp, hsep.2⟩
        · exact ⟨[' '], by rw [hl]; simp, by simp, hsep.2⟩
      · split at h
        · rename_i hd
          cases h
          exact ⟨[], by rw [hl]; simp, by simp, hd⟩
        · simp at h

theorem chapDecomp_of_match {s : List Char} {r : List Char}
    (h : chapMatch (s.map pyLowerChar) = some r) : chapDecomp s := by
  obtain ⟨m, hsplit, hm, hdig⟩ := chapMatch_sound h
  obtain ⟨s12, d, hs, h12, hd⟩ := List.map_eq_append_iff.mp hsplit
  obtain ⟨p, m2, hs2, hp, hm2⟩ := List.map_eq_append_iff.mp h12
  obtain ⟨hdne, hddig⟩ := digitsOk_parts hdig
  refine ⟨p, m2, d, by rw [hs, hs2], hp, ?_, ?_, ?_⟩
  · rcases hm with rfl | rfl
    · exact Or.inl hm2
    · exact Or.inr hm2
  · intro he
    rw [he] at hd
    simp at hd
    exact hdne hd
  · intro c hc
    have hmem : pyLowerChar c ∈ r := by
      rw [← hd]
      exact List.mem_map_of_mem _ hc
    exact digit_of_pyLower (hddig _ hmem)

theorem diffDecomp_of_match {s : List Char} {r : List Char}
    (h : diffMatch (s.map pyLowerChar) = some r) : diffDecomp s := by
  obtain ⟨sep, hsplit, hsep, hdig⟩ := diffMatch_sound h
  obtain ⟨s12, d, hs, h12, hd⟩ := List.map_eq_append_iff.mp hsplit
  obtain ⟨p, sep2, hs2, hp, hsep2⟩ := List.map_eq_append_iff.mp h12
  obtain ⟨hdne, hddig⟩ := digitsOk_parts hdig
  refine ⟨p, sep2, d, by rw [hs, hs2], hp, ?_, ?_, ?_⟩
  · rcases hsep with rfl | rfl | rfl | rfl
    · exact Or.inl (by simpa using hsep2)
    · cases sep2 with
      | nil => simp at hsep2
      | cons c2 t2 =>
        cases t2 with
        | cons _ _ => simp at hsep2
        | nil =>
          simp only [List.map_cons, List.map_nil, List.cons.injEq, and_true] at hsep2
          rcases pyLower_fix c2 '-' hsep2 with hr | rfl
          · exact absurd hr (by decide)
          · exact Or.inr (Or.inl rfl)
    · cases sep2 with
      | nil => simp at hsep2
      | cons c2 t2 =>
        cases t2 with
        | cons _ _ => simp at hsep2
        | nil =>
          simp only [List.map_cons, List.map_nil, List.cons.injEq, and_true] at hsep2
          rcases pyLower_fix c2 '_' hsep2 with hr | rfl
          · exact absurd hr (by decide)
          · exact Or.inr (Or.inr (Or.inl rfl))
    · cases sep2 with
      | nil => simp at hsep2
      | cons c2 t2 =>
        cases t2 with
        | cons _ _ => simp at hsep2
        | nil =>
          simp only [List.map_cons, List.map_nil, List.cons.injEq, and_true] at hsep2
          rcases pyLower_fix c2 ' ' hsep2 with hr | rfl
          · exact absurd hr (by decide)
          · exact Or.inr (Or.inr (Or.inr rfl))
  · intro he
    rw [he] at hd
    simp at hd
    exact hdne hd
  · intro c hc
    have hmem : pyLowerChar c ∈ r := by
      rw [← hd]
      exact List.mem_map_of_mem _ hc
    exact digit_of_pyLower (hddig _ hmem)

theorem chapMatch_of_decomp {s : List Char} {p m d : List Char}
    (hsplit : s = p ++ m ++ d) (hp : p.map pyLowerChar = ['c', 'h', 'a', 'p'])
    (hm : m.map pyLowerChar = ['t', 'e', 'r'] ∨ m.map pyLowerChar = ['e', 'r'])
    (hd : d ≠ []) (hdig : ∀ c ∈ d, isAsciiDigit c = true) :
    chapMatch (s.map pyLowerChar) = some d := by
  have hld : d.map pyLowerChar = d := map_lower_digits hdig
  rcases hm with hm | hm
  · have h1 : matchLit ['c', 'h', 'a', 'p'] (s.map pyLowerChar) =
        some (['t', 'e', 'r'] ++ d) := (matchLit_iff _ _ _).mpr
      (by rw [hsplit]; simp [hp, hm, hld])
    have h2 : matchLit ['t', 'e', 'r'] ('t' :: 'e' :: 'r' :: d) = some d :=
      (matchLit_iff _ _ _).mpr rfl
    simp [chapMatch, h1, h2, digitsOk_true hd hdig]
  · have h1 : matchLit ['c', 'h', 'a', 'p'] (s.map pyLowerChar) =
        some (['e', 'r'] ++ d) := (matchLit_iff _ _ _).mpr
      (by rw [hsplit]; simp [hp, hm, hld])
    have h2 : matchLit ['t', 'e', 'r'] ('e' :: 'r' :: d) = none := by
      simp [matchLit]
    have h3 : matchLit ['e', 'r'] ('e' :: 'r' :: d) = some d :=
      (matchLit_iff _ _ _).mpr rfl
    simp [chapMatch, h1, h2, chapAlt, h3, digitsOk_true hd hdig]

theorem pretty_title_of_chapMatch {stem : String} {d : List Char}
    (h : chapMatch (stem.data.map pyLowerChar) = some d) :
    pretty_title stem = "第" ++ natToString (valDigits d) ++ "章" := by
  unfold pretty_title
  rw [h]

/-- Claim C2 (amended): a stem splitting into pieces that lower-case to
`chap`, then `ter` or `er`, then a non-empty digit run is rendered `第N章`
with `N` the value of the digits; `chapter3` and `chaper03` do so, while
`chap03` does not match the pattern and is returned unchanged. -/
theorem pretty_title_chapter :
    (∀ (stem : String) (p m d : List Char), stem.data = p ++ m ++ d →
      p.map pyLowerChar = ['c', 'h', 'a', 'p'] →
      (m.map pyLowerChar = ['t', 'e', 'r'] ∨ m.map pyLowerChar = ['e', 'r']) →
      d ≠ [] → (∀ c ∈ d, isAsciiDigit c = true) →
      pretty_title stem = "第" ++ natToString (valDigits d) ++ "章") ∧
      pretty_title "chapter3" = "第3章" ∧ pretty_title "chaper03" = "第3章" ∧
      pretty_title "chap03" = "chap03" := by
  refine ⟨?_, by decide, by decide, by decide⟩
  intro stem p m d hsplit hp hm hd hdig
  exact pretty_title_of_chapMatch (chapMatch_of_decomp hsplit hp hm hd hdig)

/-- Witness for the amended claim C2, at the stem `ChapTER007`. -/
theorem pretty_title_chapter_witness : pretty_title "ChapTER007" = "第7章" := by
  have h := pretty_title_chapter.1 "ChapTER007" ['C', 'h', 'a', 'p'] ['T', 'E', 'R']
    ['0', '0', '7'] (by decide) (by decide) (Or.inl (by decide)) (by decide) (by decide)
  rw [h]
  decide

/-- Counterexample to claim C2 as stated: `chap03` does not match
`chap(?:ter|er)(\d+)`, so `pretty_title` falls through to the default
transform and returns the stem unchanged instead of `第3章`. -/
theorem pretty_title_chap03_cex :
    pretty_title "chap03" = "chap03" ∧ pretty_title "chap03" ≠ "第3章" := by decide

theorem chapMatch_d_none (r : List Char) : chapMatch ('d' :: r) = none := by
  simp [chapMatch, matchLit]

theorem diffMatch_of_decomp {s p sep d : List Char}
    (hsplit : s = p ++ sep ++ d)
    (hp : p.map pyLowerChar = ['d', 'i', 'f', 'f', 'u', 's', 'i', 'o', 'n'])
    (hsep : sep = [] ∨ sep = ['-'] ∨ sep = ['_'] ∨ sep = [' '])
    (hd : d ≠ []) (hdig : ∀ c ∈ d, isAsciiDigit c = true) :
    diffMatch (s.map pyLowerChar) = some d := by
  have hld : d.map pyLowerChar = d := map_lower_digits hdig
  rcases hsep with rfl | rfl | rfl | rfl
  · obtain ⟨c0, d1, rfl⟩ := List.exists_cons_of_ne_nil hd
    have h1 : matchLit ['d', 'i', 'f', 'f', 'u', 's', 'i', 'o', 'n']
        (s.map pyLowerChar) = some (c0 :: d1) := (matchLit_iff _ _ _).mpr
      (by rw [hsplit]; simp only [List.append_nil, List.map_append, hp, hld])
    have hc0 : isAsciiDigit c0 = true := hdig c0 (by simp)
    have hne : c0 ≠ '-' ∧ c0 ≠ '_' ∧ c0 ≠ ' ' := by
      refine ⟨?_, ?_, ?_⟩ <;> (intro he; rw [he] at hc0; exact absurd hc0 (by decide))
    simp [diffMatch, h1, hne.1, hne.2.1, hne.2.2,
      digitsOk_true (List.cons_ne_nil c0 d1) hdig]
  · have h1 : matchLit ['d', 'i', 'f', 'f', 'u', 's', 'i', 'o', 'n']
        (s.map pyLowerChar) = some ('-' :: d) := (matchLit_iff _ _ _).mpr
      (by rw [hsplit]; simp [hp, hld]; decide)
    simp [diffMatch, h1, digitsOk_true hd hdig]
  · have h1 : matchLit ['d', 'i', 'f', 'f', 'u', 's', 'i', 'o', 'n']
        (s.map pyLowerChar) = some ('_' :: d) := (matchLit_iff _ _ _).mpr
      (by rw [hsplit]; simp [hp, hld]; decide)
    simp [diffMatch, h1, digitsOk_true hd hdig]
  · have h1 : matchLit ['d', 'i', 'f', 'f', 'u', 's', 'i', 'o', 'n']
        (s.map pyLowerChar) = some (' ' :: d) := (matchLit_iff _ _ _).mpr
      (by rw [hsplit]; simp [hp, hld]; decide)
    simp [diffMatch, h1, digitsOk_true hd hdig]

/-- Claim C7: diffusion stems are rendered `Diffusion N`, a stem that
upper-cases to `VAE` is rendered `VAE`, and every stem matching neither
pattern and not upper-casing to `VAE` gets the default transform (underscores
and hyphens to spaces, then strip). -/
theorem pretty_title_rest :
    (∀ (stem : String) (p sep d : List Char), stem.data = p ++ sep ++ d →
      p.map pyLowerChar = ['d', 'i', 'f', 'f', 'u', 's', 'i', 'o', 'n'] →
      (sep = [] ∨ sep = ['-'] ∨ sep = ['_'] ∨ sep = [' ']) →
      d ≠ [] → (∀ c ∈ d, isAsciiDigit c = true) →
      pretty_title stem = "Diffusion " ++ natToString (valDigits d)) ∧
    (∀ stem : String, stem.data.map pyUpperChar = ['V', 'A', 'E'] →
      pretty_title stem = "VAE") ∧
    (∀ stem : String, ¬chapDecomp stem.data → ¬diffDecomp stem.data →
      stem.data.map pyUpperChar ≠ ['V', 'A', 'E'] →
      pretty_title stem =
        String.mk (stripEnds pyIsSpace (stem.data.map dashUnderToSpace))) ∧
    pretty_title "diffusion-7" = "Diffusion 7" ∧ pretty_title "vae" = "VAE" ∧
    pretty_title "my_notes-v2" = "my notes v2" := by
  refine ⟨?_, ?_, ?_, by decide, by decide, by decide⟩
  · intro stem p sep d hsplit hp hsep hd hdig
    have hdiff := diffMatch_of_decomp hsplit hp hsep hd hdig
    have hhead : stem.data.map pyLowerChar =
        'd' :: (['i', 'f', 'f', 'u', 's', 'i', 'o', 'n'] ++
          (sep.map pyLowerChar ++ d.map pyLowerChar)) := by
      rw [hsplit]
      simp [hp]
    have hchap : chapMatch (stem.data.map pyLowerChar) = none := by
      rw [hhead, chapMatch_d_none]
    unfold pretty_title
    rw [hchap, hdiff]
  · intro stem h
    have hlen : stem.data.length = 3 := by
      have := congrArg List.length h
      simpa using this
    have hchap : chapMatch (stem.data.map pyLowerChar) = none := by
      cases hc : chapMatch (stem.data.map pyLowerChar) with
      | none => rfl
      | some r =>
        obtain ⟨m, hsp, _, _⟩ := chapMatch_sound hc
        have := congrArg List.length hsp
        simp [hlen] at this
    have hdiff : diffMatch (stem.data.map pyLowerChar) = none := by
      cases hc : diffMatch (stem.data.map pyLowerChar) with
      | none => rfl
      | some r =>
        obtain ⟨sep, hsp, _, _⟩ := diffMatch_sound hc
        have := congrArg List.length hsp
        simp [hlen] at this
    unfold pretty_title
    rw [hchap, hdiff, if_pos h]
  · intro stem hnc hnd hvae
    have hchap : chapMatch (stem.data.map pyLowerChar) = none := by
      cases hc : chapMatch (stem.data.map pyLowerChar) with
      | none => rfl
      | some r => exact absurd (chapDecomp_of_match hc) hnc
    have hdiff : diffMatch (stem.data.map pyLowerChar) = none := by
      cases hc : diffMatch (stem.data.map pyLowerChar) with
      | none => rfl
      | some r => exact absurd (diffDecomp_of_match hc) hnd
    unfold pretty_title
    rw [hchap, hdiff, if_neg hvae]

/-- Witness for claim C7, at the stems `Diffusion_08`, `vAe` and `a b`. -/
theorem pretty_title_rest_witness :
    pretty_title "Diffusion_08" = "Diffusion 8" ∧ pretty_title "vAe" = "VAE" ∧
      pretty_title "a b" = "a b" := by
  refine ⟨?_, pretty_title_rest.2.1 "vAe" (by decide), ?_⟩
  · have h := pretty_title_rest.1 "Diffusion_08"
      ['D', 'i', 'f', 'f', 'u', 's', 'i', 'o', 'n'] ['_'] ['0', '8']
      (by decide) (by decide) (Or.inr (Or.inr (Or.inl rfl))) (by decide) (by decide)
    rw [h]
    decide
  · have hnc : ¬chapDecomp ("a b" : String).data := by
      intro hdec
      obtain ⟨p, m, d, hsplit, hp, hm, hd, _⟩ := hdec
      have hl := congrArg List.length hsplit
      have hlp : p.length = 4 := by
        have := congrArg List.length hp
        simpa using this
      have hlm : m.length = 3 ∨ m.length = 2 := by
        rcases hm with hm | hm
        · left
          have := congrArg List.length hm
          simpa using this
        · right
          have := congrArg List.length hm
          simpa using this
      have hld : 0 < d.length := List.length_pos.mpr hd
      have h3 : ("a b" : String).data.length = 3 := by decide
      rw [h3] at hl
      simp [List.length_append] at hl
      omega
    have hnd : ¬diffDecomp ("a b" : String).data := by
      intro hdec
      obtain ⟨p, sep, d, hsplit, hp, _, hd, _⟩ := hdec
      have hl := congrArg List.length hsplit
      have hlp : p.length = 9 := by
        have := congrArg List.length hp
        simpa using this
      have hld : 0 < d.length := List.length_pos.mpr hd
      have h3 : ("a b" : String).data.length = 3 := by decide
      rw [h3] at hl
      simp [List.length_append] at hl
      omega
    have h := pretty_title_rest.2.2.1 "a b" hnc hnd (by decide)
    rw [h]
    decide

/-! ### Camel-case spacing -/

theorem char_le_iff (a b : Char) : a ≤ b ↔ a.toNat ≤ b.toNat := by
  exact_mod_cast Iff.rfl

theorem upper_no_lower {b : Char} (h : isUpperAscii b = true) :
    isLowerAlnum b = false := by
  unfold isUpperAscii at h
  unfold isLowerAlnum isAsciiDigit
  rw [Bool.and_eq_true, decide_eq_true_eq, decide_eq_true_eq] at h
  rw [char_le_iff, char_le_iff] at h
  have hA : ('A' : Char).toNat = 65 := rfl
  have hZ : ('Z' : Char).toNat = 90 := rfl
  rw [hA] at h
  rw [hZ] at h
  simp only [Bool.or_eq_false_iff, Bool.and_eq_false_iff]
  constructor
  · refine Or.inl ?_
    rw [decide_eq_false_iff_not, char_le_iff]
    have : ('a' : Char).toNat = 97 := rfl
    omega
  · refine Or.inr ?_
    rw [decide_eq_false_iff_not, char_le_iff]
    have : ('9' : Char).toNat = 57 := rfl
    omega

/-- The pointwise description of the camel-case boundary substitution given by
the spec: a space is inserted between each adjacent pair consisting of a
lower-case-or-digit character and an upper-case character. -/
def camelPairs (l : List Char) : List Char :=
  (List.zip l l.tail).flatMap
    (fun q => if isLowerAlnum q.1 && isUpperAscii q.2 then [' ', q.2] else [q.2])

/-- Pointwise camel-case spacing of a whole string. -/
def camelSpec (l : List Char) : List Char :=
  match l with
  | [] => []
  | c :: cs => c :: camelPairs (c :: cs)

theorem camelPairs_cons (a b : Char) (rest : List Char) :
    camelPairs (a :: b :: rest) =
      (if isLowerAlnum a && isUpperAscii b then [' ', b] else [b]) ++
        camelPairs (b :: rest) := by
  simp [camelPairs]

/-- The sequential `re.sub` scan of the source computes exactly the pointwise
substitution: skipping the pair that follows a replacement loses nothing,
because an upper-case character never opens a new match. -/
theorem camelSub_eq_spec : (l : List Char) → camelSub l = camelSpec l
  | [] => rfl
  | [c] => rfl
  | a :: b :: rest => by
    have hb := camelSub_eq_spec (b :: rest)
    by_cases hab : (isLowerAlnum a && isUpperAscii b) = true
    · have hr := camelSub_eq_spec rest
      have hbl : isLowerAlnum b = false := by
        rw [Bool.and_eq_true] at hab
        exact upper_no_lower hab.2
      simp only [camelSub, hab, if_true, camelSpec, camelPairs_cons]
      cases rest with
      | nil => simp [camelPairs, camelSub]
      | cons r0 rest2 =>
        rw [hr]
        simp [camelSpec, camelPairs_cons, hab, hbl]
    · rw [Bool.not_eq_true] at hab
      simp only [camelSub, hab, Bool.false_eq_true, if_false]
      rw [hb]
      simp [camelSpec, camelPairs_cons, hab]

/-- Claim C8: the category display name is the table override when the
directory name is in the table, and otherwise the name with a space inserted
at each lower-case-or-digit to upper-case boundary, underscores and hyphens
replaced by spaces, stripped, falling back to the raw name when empty. -/
theorem prettify_name_spec :
    (∀ name : String, prettify_category_name name =
      match CATEGORY_NAME_OVERRIDES.lookup name with
      | some v => v
      | none =>
        if (stripEnds pyIsSpace ((camelSpec name.data).map dashUnderToSpace)).isEmpty
        then name
        else String.mk (stripEnds pyIsSpace ((camelSpec name.data).map dashUnderToSpace))) ∧
    prettify_category_name "TimeSeries" = "时间序列" ∧
    prettify_category_name "MyTopicArea" = "My Topic Area" := by
  refine ⟨?_, by decide, by decide⟩
  intro name
  unfold prettify_category_name
  rw [camelSub_eq_spec]

end NotesIndex
